import Mathlib

/-!
Verification development for the DronePhotogrammetry conversion core.

Shallow embedding of:
- the zip→GLB conversion (`convertZipToGlb` in the backend's zip-to-gltf module),
- the PNG recompression helpers (`compressPng`, `compressAllPngsInDirectory`),
- the `mtllib` relink step,
- the model endpoint with its GLB file cache (`getModel` in the WebODM controller),
- the frontend job-status watcher (`checkProgress` in the ModelViewer component).

Byte buffers are `List Nat`; filesystem effects are recorded as explicit
operation traces (`FsOp`) so that statements about what gets written,
renamed or deleted are provable.
-/

namespace DronePhoto

/-- JS `String.prototype.endsWith`, over the character lists of Lean strings. -/
def strEndsWith (s suffixStr : String) : Bool :=
  suffixStr.data.isSuffixOf s.data

/-- JS `String.prototype.toLowerCase` (ASCII case folding suffices here). -/
def lowerName (s : String) : String :=
  ⟨s.data.map Char.toLower⟩

/-- `path.basename`: the part of a path after the last `/` separator. -/
def basenameChars (l : List Char) : List Char :=
  l.foldl (fun acc c => if c = '/' then [] else acc ++ [c]) []

/-- `path.basename` on strings. -/
def basename (s : String) : String :=
  ⟨basenameChars s.data⟩

/-- `path.join(dir, name)`. -/
def joinPath (dir name : String) : String :=
  dir ++ "/" ++ name

/-- Split a character list at newline characters (the line structure the
`/^mtllib\s+.*$/gm` regex operates over). -/
def splitOnNl : List Char → List (List Char)
  | [] => [[]]
  | c :: rest =>
    if c = '\n' then [] :: splitOnNl rest
    else
      match splitOnNl rest with
      | [] => [[c]]
      | l :: ls => (c :: l) :: ls

/-- Rejoin lines with newline characters. -/
def joinNl : List (List Char) → List Char
  | [] => []
  | [l] => l
  | l :: ls => l ++ '\n' :: joinNl ls

theorem splitOnNl_ne_nil (cs : List Char) : splitOnNl cs ≠ [] := by
  induction cs with
  | nil => simp [splitOnNl]
  | cons c rest ih =>
    simp only [splitOnNl]
    by_cases h : c = '\n'
    · simp [h]
    · simp only [h, if_false]
      cases hr : splitOnNl rest <;> simp

theorem mem_splitOnNl_no_newline {cs l : List Char}
    (h : l ∈ splitOnNl cs) : '\n' ∉ l := by
  induction cs generalizing l with
  | nil =>
    simp [splitOnNl] at h
    simp [h]
  | cons c rest ih =>
    simp only [splitOnNl] at h
    by_cases hc : c = '\n'
    · simp only [hc, if_true, List.mem_cons] at h
      rcases h with h | h
      · simp [h]
      · exact ih h
    · simp only [hc, if_false] at h
      cases hr : splitOnNl rest with
      | nil => exact absurd hr (splitOnNl_ne_nil rest)
      | cons hd tl =>
        rw [hr] at h
        rcases List.mem_cons.mp h with h | h
        · subst h
          intro hmem
          rcases List.mem_cons.mp hmem with h | h
          · exact hc h.symm
          · exact ih (hr ▸ List.mem_cons_self hd tl) h
        · exact ih (hr ▸ List.mem_cons_of_mem hd h)

theorem splitOnNl_no_newline {l : List Char} (h : '\n' ∉ l) :
    splitOnNl l = [l] := by
  induction l with
  | nil => simp [splitOnNl]
  | cons c rest ih =>
    have hc : c ≠ '\n' := fun hccc => h (hccc ▸ List.mem_cons_self c rest)
    have hrest : '\n' ∉ rest := fun hm => h (List.mem_cons_of_mem c hm)
    simp [splitOnNl, hc, ih hrest]

theorem splitOnNl_append_newline {l cs : List Char} (h : '\n' ∉ l) :
    splitOnNl (l ++ '\n' :: cs) = l :: splitOnNl cs := by
  induction l with
  | nil => simp [splitOnNl]
  | cons c rest ih =>
    have hc : c ≠ '\n' := fun hccc => h (hccc ▸ List.mem_cons_self c rest)
    have hrest : '\n' ∉ rest := fun hm => h (List.mem_cons_of_mem c hm)
    simp only [List.cons_append, splitOnNl, hc, if_false, List.append_eq]
    rw [ih hrest]

theorem splitOnNl_joinNl {ls : List (List Char)} (hne : ls ≠ [])
    (h : ∀ l ∈ ls, '\n' ∉ l) : splitOnNl (joinNl ls) = ls := by
  induction ls with
  | nil => exact absurd rfl hne
  | cons l rest ih =>
    cases rest with
    | nil =>
      simp only [joinNl]
      exact splitOnNl_no_newline (h l (List.mem_cons_self l []))
    | cons l2 rest2 =>
      have hl : '\n' ∉ l := h l (List.mem_cons_self _ _)
      have hrest : ∀ x ∈ l2 :: rest2, '\n' ∉ x :=
        fun x hx => h x (List.mem_cons_of_mem l hx)
      simp only [joinNl, splitOnNl_append_newline hl,
        ih (by simp) hrest]

theorem basenameChars_no_slash (l : List Char) :
    '/' ∉ basenameChars l := by
  suffices hgen : ∀ acc : List Char, '/' ∉ acc →
      '/' ∉ l.foldl (fun acc c => if c = '/' then [] else acc ++ [c]) acc by
    exact hgen [] (by simp)
  induction l with
  | nil => intro acc hacc; simpa using hacc
  | cons c rest ih =>
    intro acc hacc
    simp only [List.foldl_cons]
    by_cases hc : c = '/'
    · simp only [hc, if_true]
      exact ih [] (by simp)
    · simp only [hc, if_false]
      refine ih (acc ++ [c]) ?_
      intro hmem
      rcases List.mem_append.mp hmem with hmem | hmem
      · exact hacc hmem
      · simp at hmem
        exact hc hmem.symm

theorem basename_no_slash (s : String) : '/' ∉ (basename s).data :=
  basenameChars_no_slash s.data

/-! ## Filesystem effect traces and archive entries -/

/-- One filesystem side effect, recorded in order of execution. -/
inductive FsOp where
  | mkdir (p : String)
  | writeFile (p : String) (data : List Nat)
  | deleteFile (p : String)
  | renameFile (src dst : String)
deriving Repr, DecidableEq

/-- An entry of the downloaded `textured_model.zip` archive: its archive-relative
name and its raw bytes (as returned by `entry.getData()`). -/
structure ZipEntry where
  entryName : String
  data : List Nat
deriving Repr, DecidableEq

/-- Byte→text decode of the OBJ payload (`buffer.toString('utf8')`), modelled
as a codepoint-per-byte map, which is the identity on ASCII content. -/
def decodeUtf8 (bs : List Nat) : String :=
  ⟨bs.map Char.ofNat⟩

/-- Text→byte encode (`fs.writeFileSync` of a string), inverse direction of
`decodeUtf8`. -/
def encodeUtf8 (s : String) : List Nat :=
  s.data.map Char.toNat

/-- `e.entryName.endsWith('.obj')`: the mesh entry predicate. -/
def isObjName (name : String) : Bool :=
  strEndsWith name ".obj"

/-- `e.entryName.endsWith('odm_textured_model_geo.mtl')`: the material entry
predicate. -/
def isMtlName (name : String) : Bool :=
  strEndsWith name "odm_textured_model_geo.mtl"

/-- The texture collection predicate: `.png`, `.jpg` or `.jpeg` suffix. -/
def isTextureName (name : String) : Bool :=
  strEndsWith name ".png" || strEndsWith name ".jpg" || strEndsWith name ".jpeg"

/-- `file.toLowerCase().endsWith('.png')`: the filter used by
`compressAllPngsInDirectory` when scanning the temp directory. -/
def isPngName (name : String) : Bool :=
  strEndsWith (lowerName name) ".png"

/-! ## MaterialRelinker -/

/-- ECMAScript LineTerminator set: the characters `.` refuses to match and
the positions at which multiline `^`/`$` anchor. -/
def isLineTerminator (c : Char) : Bool :=
  c = '\n' || c = '\r' || c = '\u2028' || c = '\u2029'

/-- ECMAScript `\s`: WhiteSpace ∪ LineTerminator. In particular it contains
`\n`, so a `\s+` inside a multiline regex runs across line breaks. -/
def isJsWhitespace (c : Char) : Bool :=
  c = ' ' || c = '\t' || c = '\n' || c = '\r' || c = '\x0b' || c = '\x0c' ||
  c = '\u00A0' || c = '\u1680' || ('\u2000' ≤ c && c ≤ '\u200A') ||
  c = '\u2028' || c = '\u2029' || c = '\u202F' || c = '\u205F' ||
  c = '\u3000' || c = '\uFEFF'

/-- The literal characters of the `mtllib` keyword. -/
def mtllibLit : List Char :=
  ['m', 't', 'l', 'l', 'i', 'b']

/-- One attempt of `/^mtllib\s+.*$/` at the current position (the caller
guarantees it is a line start): the literal `mtllib`, then a greedy nonempty
`\s+` run — ECMAScript `\s` includes the line terminators, so the run
continues across line breaks — then `.*` up to the next line terminator,
where multiline `$` holds. Greediness never backtracks here: the maximal
whitespace run ends at a non-whitespace (hence non-terminator) character or
at the end of input, after which `.*$` always succeeds. Returns the text
remaining after the match. -/
def matchMtllibAt (x : List Char) : Option (List Char) :=
  if x.take 6 = mtllibLit then
    match x.drop 6 with
    | [] => none
    | c :: t =>
      if isJsWhitespace c then
        some (((c :: t).dropWhile isJsWhitespace).dropWhile
          (fun d => !isLineTerminator d))
      else none
  else none

/-- The scanner of `String.prototype.replace` with the `g` flag for the
anchored pattern: walk the text, attempt the pattern exactly at line-start
positions, and on a match emit the replacement and resume after the match
(whose end is either the end of input or just before a line terminator, so
never itself a line start). `fuel` bounds the recursion; every step consumes
at least one character, so `fuel = text.length` computes the replacement
exactly. -/
def replaceMtllibAux (repl : List Char) : Nat → Bool → List Char → List Char
  | 0, _, l => l
  | _ + 1, _, [] => []
  | fuel + 1, atStart, c :: rest =>
    if atStart then
      match matchMtllibAt (c :: rest) with
      | some remainder => repl ++ replaceMtllibAux repl fuel false remainder
      | none => c :: replaceMtllibAux repl fuel (isLineTerminator c) rest
    else
      c :: replaceMtllibAux repl fuel (isLineTerminator c) rest

/-- `objContent.replace(/^mtllib\s+.*$/gm, `mtllib ${mtlFileName}`)` (the
replacement string is treated literally; the material basenames involved
contain no `$` patterns). -/
def replaceMtllib (mtlFileName : String) (objContent : String) : String :=
  ⟨replaceMtllibAux ("mtllib ".data ++ mtlFileName.data)
    objContent.data.length true objContent.data⟩

/-- Whether the pattern, restricted to a single line, matches that line: it
starts with `mtllib` followed by at least one `\s` character. -/
def isMtllibLineChars (l : List Char) : Bool :=
  if l.take 6 = mtllibLit then
    match l.drop 6 with
    | c :: _ => isJsWhitespace c
    | [] => false
  else false

/-- A line on which the regex behaves line-locally: either no directive
starts there at all, or the whitespace run after `mtllib` ends before the
line does. On an unsafe line — bare `mtllib`, or a directive whose trailing
whitespace reaches the line break — the greedy `\s+` consumes the terminator
and the match swallows the following line. -/
def mtllibSafeLine (l : List Char) : Bool :=
  if l.take 6 = mtllibLit then
    match l.drop 6 with
    | [] => false
    | c :: t => !isJsWhitespace c || !((c :: t).dropWhile isJsWhitespace).isEmpty
  else true

/-- Per-line effect of the replacement on a safe line: a directive line is
rewritten wholesale to `mtllib ` + the material name, any other line is
untouched. -/
def relinkLineChars (mtlName : List Char) (line : List Char) : List Char :=
  if isMtllibLineChars line then "mtllib ".data ++ mtlName else line

/-- The relink step of `convertZipToGlb`: when a material entry exists, the
mesh text goes through the `mtllib` replacement with the material's base
filename; with no material entry the mesh text is left as-is. -/
def relinkStep (mtlEntry : Option ZipEntry) (objContent : String) : String :=
  match mtlEntry with
  | none => objContent
  | some m => replaceMtllib (basename m.entryName) objContent

/-! ## TextureTranscoder (`compressPng` / `compressAllPngsInDirectory`) -/

/-- `compressPng(inputPath, inputPath, options)`: run the image pipeline
(`sharpPng`, the external sharp encode modelled as a partial byte function);
on success the result is written to `inputPath + '.temp'`, the original is
unlinked and the temp file renamed over it; on any error the error is caught,
logged, and the original bytes stay in place with no filesystem effect. -/
def compressPng (sharpPng : List Nat → Option (List Nat)) (inputPath : String)
    (bytes : List Nat) : List Nat × List FsOp :=
  match sharpPng bytes with
  | some outBytes =>
      (outBytes,
        [FsOp.writeFile (inputPath ++ ".temp") outBytes,
         FsOp.deleteFile inputPath,
         FsOp.renameFile (inputPath ++ ".temp") inputPath])
  | none => (bytes, [])

/-- `compressAllPngsInDirectory(tmpDir, options)`: every file of the directory
whose lowercased name ends in `.png` is compressed in place by `compressPng`;
all other files are untouched. Returns the updated directory contents and the
concatenated filesystem trace. -/
def compressAllPngsInDirectory (sharpPng : List Nat → Option (List Nat))
    (tmpDir : String) (files : List (String × List Nat)) :
    List (String × List Nat) × List FsOp :=
  (files.map (fun f =>
      if isPngName f.1 then (f.1, (compressPng sharpPng (joinPath tmpDir f.1) f.2).1)
      else f),
   ((files.filter (fun f => isPngName f.1)).map
      (fun f => (compressPng sharpPng (joinPath tmpDir f.1) f.2).2)).flatten)

/-- Round-half-up division `Math.round(a / b)` for nonnegative operands. -/
def roundHalfUp (a b : Nat) : Nat :=
  (2 * a + b) / (2 * b)

/-- The sharp `resize(maxWidth, maxHeight, {fit: 'inside',
withoutEnlargement: true})` geometry used by `compressPng`: a uniform scale
factor `min(maxW/w, maxH/h)`, capped at 1, applied to both dimensions with
rounding (and a 1-pixel floor). -/
def fitInside (w h maxW maxH : Nat) : Nat × Nat :=
  if w ≤ maxW ∧ h ≤ maxH then (w, h)
  else if maxW * h ≤ maxH * w then
    (maxW, max 1 (roundHalfUp (h * maxW) w))
  else
    (max 1 (roundHalfUp (w * maxH) h), maxH)

/-- Effect of one `compressPng` call on the texture's pixel dimensions: a
successful sharp pipeline resizes within the configured bounds; a failed one
is caught and the original image (and hence its dimensions) is retained. -/
def transcodeDims (ok : Bool) (maxW maxH w h : Nat) : Nat × Nat :=
  if ok then fitInside w h maxW maxH else (w, h)

/-! ## `convertZipToGlb` -/

/-- Failure of the conversion before any asset is produced. -/
inductive ConvError where
  | missingMesh
deriving Repr, DecidableEq

/-- Outcome of a successful `convertZipToGlb` run: the in-memory GLB buffer,
the archive name of the selected mesh entry, and the ordered filesystem trace
of the conversion. -/
structure ConvertResult where
  glb : List Nat
  objName : String
  ops : List FsOp
deriving Repr, DecidableEq

/-- The `fs.writeFileSync(mtlPath, mtlEntry.getData())` performed when the
material entry exists. -/
def mtlWriteOps (tmpDir : String) : Option ZipEntry → List FsOp
  | some m => [FsOp.writeFile (joinPath tmpDir (basename m.entryName)) m.data]
  | none => []

/-- The material file placed into the temp directory, if any. -/
def mtlFilesOf : Option ZipEntry → List (String × List Nat)
  | some m => [(basename m.entryName, m.data)]
  | none => []

/-- `convertZipToGlb(zipBuffer)`. The archive is given as its parsed entry
list; `glbOf` is the external `obj2gltf` assembler (a pure function of the
relinked mesh text and the temp-directory contents it reads); `sharpPng` is
the external sharp encode; `tmpDir` is the timestamped temp directory path.

Faithful structure: select the first `.obj` entry (throwing when absent),
the `odm_textured_model_geo.mtl` entry and all png/jpg/jpeg entries; create
the temp directory; write the material (if any) and rewrite the mesh's
`mtllib` lines to its base name; write the relinked mesh and every texture
under its base name; compress the `.png` files in the directory; run
`obj2gltf`; write a `debug_result.glb` copy into the temp directory; return
the buffer. The commented-out cleanup in the source removes nothing, so the
trace ends at the debug write. -/
def convertZipToGlb (glbOf : String → List (String × List Nat) → List Nat)
    (sharpPng : List Nat → Option (List Nat)) (tmpDir : String)
    (entries : List ZipEntry) : Except ConvError ConvertResult :=
  match entries.find? (fun e => isObjName e.entryName) with
  | none => .error .missingMesh
  | some objEntry =>
    let mtlEntry := entries.find? (fun e => isMtlName e.entryName)
    let textureEntries := entries.filter (fun e => isTextureName e.entryName)
    let objFileName := basename objEntry.entryName
    let objContent := relinkStep mtlEntry (decodeUtf8 objEntry.data)
    let mtlOps := mtlWriteOps tmpDir mtlEntry
    let mtlFiles := mtlFilesOf mtlEntry
    let texOps := textureEntries.map
      (fun t => FsOp.writeFile (joinPath tmpDir (basename t.entryName)) t.data)
    let texFiles := textureEntries.map (fun t => (basename t.entryName, t.data))
    let dirFiles := mtlFiles ++ [(objFileName, encodeUtf8 objContent)] ++ texFiles
    let compressed :=
      if textureEntries.length > 0
      then compressAllPngsInDirectory sharpPng tmpDir dirFiles
      else (dirFiles, [])
    let glbBuffer := glbOf objContent compressed.1
    .ok { glb := glbBuffer
        , objName := objEntry.entryName
        , ops := (FsOp.mkdir tmpDir ::
                   (mtlOps ++
                    [FsOp.writeFile (joinPath tmpDir objFileName) (encodeUtf8 objContent)] ++
                    texOps ++ compressed.2)) ++
                 [FsOp.writeFile (joinPath tmpDir "debug_result.glb") glbBuffer] }

/-! ## The model endpoint and its GLB cache (`getModel` in the controller) -/

/-- Fixed base directory of the GLB cache
(`uploads/users/projects/model/glb` under the working directory). -/
def glbDir : String :=
  "uploads/users/projects/model/glb"

/-- Lookup of a file in the cache directory contents. -/
def cacheGet : List (String × List Nat) → String → Option (List Nat)
  | [], _ => none
  | (k, v) :: rest, key => if k = key then some v else cacheGet rest key

/-- Effect of `fs.writeFileSync` on the cache directory contents:
overwrite the entry if present, append it otherwise. -/
def cachePut : List (String × List Nat) → String → List Nat → List (String × List Nat)
  | [], key, v => [(key, v)]
  | (k, v0) :: rest, key, v =>
      if k = key then (k, v) :: rest else (k, v0) :: cachePut rest key v

/-- Error responses of the model endpoint. -/
inductive ModelError where
  | notCompleted (status : Int)
  | convError (e : ConvError)
deriving Repr, DecidableEq

/-- Observable outcome of one `getModel` request: the HTTP payload, the cache
directory contents afterwards, whether the conversion pipeline was invoked,
and the filesystem operations performed against the cache directory. -/
structure GetModelOut where
  response : Except ModelError (List Nat)
  cache : List (String × List Nat)
  conversionRan : Bool
  cacheOps : List FsOp

/-- The `GET .../tasks/:taskId/model` handler. Faithful order: reject unless
the task status is 40 (Completed); serve `{taskId}.glb` straight from the
cache directory when it exists; otherwise download the archive (`entries`),
run `convertZipToGlb`, create the cache directory if absent, and persist the
buffer with a single direct `fs.writeFileSync` before sending it. -/
def getModel (glbOf : String → List (String × List Nat) → List Nat)
    (sharpPng : List Nat → Option (List Nat)) (tmpDir : String)
    (status : Int) (taskId : String) (entries : List ZipEntry)
    (glbDirExists : Bool) (cache : List (String × List Nat)) : GetModelOut :=
  if status ≠ 40 then
    { response := .error (.notCompleted status), cache := cache
    , conversionRan := false, cacheOps := [] }
  else
    let glbFileName := taskId ++ ".glb"
    match cacheGet cache glbFileName with
    | some bytes =>
        { response := .ok bytes, cache := cache
        , conversionRan := false, cacheOps := [] }
    | none =>
        match convertZipToGlb glbOf sharpPng tmpDir entries with
        | .error e =>
            { response := .error (.convError e), cache := cache
            , conversionRan := true, cacheOps := [] }
        | .ok r =>
            { response := .ok r.glb
            , cache := cachePut cache glbFileName r.glb
            , conversionRan := true
            , cacheOps := (if glbDirExists then [] else [FsOp.mkdir glbDir]) ++
                [FsOp.writeFile (joinPath glbDir glbFileName) r.glb] }

/-! ## JobStatusWatcher (`checkProgress` in the ModelViewer component) -/

/-- Message set by the watcher when a poll throws. -/
def pollErrorMessage : String :=
  "進行状況の確認に失敗しました"

/-- Message set by the watcher when the job reports status 30 (Failed). -/
def jobFailedMessage : String :=
  "モデルの生成に失敗しました"

/-- React state relevant to the watch loop: whether the interval is live with
a current project, the loading flag, the surfaced error, how many times the
terminal callback (model fetch + display) has fired, and the last progress. -/
structure WatchState where
  watching : Bool
  loading : Bool
  error : Option String
  modelFetched : Nat
  progress : Nat
deriving Repr, DecidableEq

/-- What one poll of `webodmApi.getTaskStatus` observes: a numeric status
with progress, or a thrown (network/timeout) error. -/
inductive PollResult where
  | ok (status : Int) (progress : Nat)
  | err
deriving Repr, DecidableEq

/-- One invocation of `checkProgress`: a no-op once the watch is inactive;
on a thrown poll the interval is cleared and an error surfaced; otherwise
progress is stored, then status 40 clears the interval and fires the model
fetch, 20 keeps loading, 30 clears the interval with a failure message, and
every other status (10, 50, unknown codes) falls through with polling live. -/
def checkProgress (s : WatchState) (r : PollResult) : WatchState :=
  if s.watching = false then s
  else
    match r with
    | .err =>
        { s with watching := false, loading := false,
                 error := some pollErrorMessage }
    | .ok st pr =>
        let s1 := { s with progress := pr }
        if st = 40 then
          { s1 with watching := false, loading := false,
                    modelFetched := s1.modelFetched + 1 }
        else if st = 20 then { s1 with loading := true }
        else if st = 30 then
          { s1 with watching := false, loading := false,
                    error := some jobFailedMessage }
        else s1

/-- The watcher state right after `setInterval(checkProgress, interval)`
starts for a running task. -/
def initWatchState : WatchState :=
  { watching := true, loading := true, error := none
  , modelFetched := 0, progress := 0 }

/-- The watch loop: successive `checkProgress` invocations over the observed
poll results. -/
def runWatch (s : WatchState) (rs : List PollResult) : WatchState :=
  rs.foldl checkProgress s

/-! ## Watcher lemmas -/

theorem checkProgress_inactive {s : WatchState} (h : s.watching = false)
    (r : PollResult) : checkProgress s r = s := by
  simp [checkProgress, h]

theorem runWatch_inactive {s : WatchState} (h : s.watching = false)
    (rs : List PollResult) : runWatch s rs = s := by
  induction rs with
  | nil => rfl
  | cons r rest ih =>
    show runWatch (checkProgress s r) rest = s
    rw [checkProgress_inactive h, ih]

theorem checkProgress_nonterminal {s : WatchState} (h : s.watching = true)
    {st : Int} (h40 : st ≠ 40) (h30 : st ≠ 30) (pr : Nat) :
    (checkProgress s (.ok st pr)).watching = true ∧
    (checkProgress s (.ok st pr)).modelFetched = s.modelFetched ∧
    (checkProgress s (.ok st pr)).error = s.error := by
  by_cases h20 : st = 20 <;>
    simp [checkProgress, h, h40, h30, h20]

theorem checkProgress_completed {s : WatchState} (h : s.watching = true)
    (pr : Nat) :
    (checkProgress s (.ok 40 pr)).modelFetched = s.modelFetched + 1 ∧
    (checkProgress s (.ok 40 pr)).watching = false := by
  simp [checkProgress, h]

theorem checkProgress_failed {s : WatchState} (h : s.watching = true)
    (pr : Nat) :
    (checkProgress s (.ok 30 pr)).modelFetched = s.modelFetched ∧
    (checkProgress s (.ok 30 pr)).watching = false ∧
    (checkProgress s (.ok 30 pr)).error = some jobFailedMessage := by
  norm_num [checkProgress, h]

theorem runWatch_nonterminal {rs : List PollResult}
    (h : ∀ r ∈ rs, ∃ st pr, r = PollResult.ok st pr ∧ st ≠ 40 ∧ st ≠ 30) :
    ∀ s : WatchState, s.watching = true →
      (runWatch s rs).watching = true ∧
      (runWatch s rs).modelFetched = s.modelFetched ∧
      (runWatch s rs).error = s.error := by
  induction rs with
  | nil => exact fun s hs => ⟨hs, rfl, rfl⟩
  | cons r rest ih =>
    intro s hs
    have hr := h r (List.mem_cons_self r rest)
    have htl : ∀ x ∈ rest, ∃ st pr, x = PollResult.ok st pr ∧ st ≠ 40 ∧ st ≠ 30 :=
      fun x hx => h x (List.mem_cons_of_mem r hx)
    obtain ⟨st, pr, rfl, h40, h30⟩ := hr
    have step := checkProgress_nonterminal hs h40 h30 pr
    have tail := ih htl _ step.1
    have hrun : runWatch s (PollResult.ok st pr :: rest)
        = runWatch (checkProgress s (.ok st pr)) rest := rfl
    exact ⟨hrun ▸ tail.1, by rw [hrun, tail.2.1, step.2.1],
           by rw [hrun, tail.2.2, step.2.2]⟩

/-- Decidable form of "the watch loop treats this poll as non-terminal":
a successfully observed status other than 40 (Completed) and 30 (Failed).
Thrown polls are excluded because the loop reacts to them. -/
def nonTerminalPoll : PollResult → Bool
  | .ok st _ => decide (st ≠ 40) && decide (st ≠ 30)
  | .err => false

theorem runWatch_nonterminal_polls {rs : List PollResult}
    (h : ∀ r ∈ rs, nonTerminalPoll r = true)
    {s : WatchState} (hs : s.watching = true) :
    (runWatch s rs).watching = true ∧
    (runWatch s rs).modelFetched = s.modelFetched ∧
    (runWatch s rs).error = s.error := by
  refine runWatch_nonterminal ?_ s hs
  intro r hr
  have hb := h r hr
  cases r with
  | err => simp [nonTerminalPoll] at hb
  | ok st pr =>
    simp only [nonTerminalPoll, Bool.and_eq_true, decide_eq_true_eq] at hb
    exact ⟨st, pr, rfl, hb.1, hb.2⟩

theorem runWatch_append (s : WatchState) (l1 l2 : List PollResult) :
    runWatch s (l1 ++ l2) = runWatch (runWatch s l1) l2 :=
  List.foldl_append ..

/-- C2 counterexample: on observing status 50 (Canceled) the watcher does not
stop — the `checkProgress` branch chain handles only 40, 20 and 30, so a
Canceled job leaves the interval live, no error surfaced and no callback
fired, contradicting the claim that the watcher stops polling and surfaces
the terminal status on Canceled. -/
theorem watcher_canceled_keeps_polling_cex :
    (checkProgress initWatchState (PollResult.ok 50 0)).watching = true ∧
    (checkProgress initWatchState (PollResult.ok 50 0)).error = none ∧
    (checkProgress initWatchState (PollResult.ok 50 0)).modelFetched = 0 := by
  decide

/-- C2 (amended): over any observed status sequence, the terminal callback
(model fetch + display) fires exactly once, at the first poll observing
status 40, and never on earlier non-terminal observations; on first observing
status 30 the watcher stops polling and surfaces the failure message without
invoking the pipeline. (Status 50, Canceled, is treated as non-terminal:
polling continues.) -/
theorem watcher_terminal_callback_fires_once
    (pre rest : List PollResult) (p q : Nat)
    (hpre : ∀ r ∈ pre, nonTerminalPoll r = true) :
    (runWatch initWatchState pre).modelFetched = 0 ∧
    (runWatch initWatchState pre).watching = true ∧
    (runWatch initWatchState (pre ++ PollResult.ok 40 p :: rest)).modelFetched = 1 ∧
    (runWatch initWatchState (pre ++ PollResult.ok 40 p :: rest)).watching = false ∧
    (runWatch initWatchState (pre ++ PollResult.ok 30 q :: rest)).modelFetched = 0 ∧
    (runWatch initWatchState (pre ++ PollResult.ok 30 q :: rest)).watching = false ∧
    (runWatch initWatchState (pre ++ PollResult.ok 30 q :: rest)).error
      = some jobFailedMessage := by
  have hp := runWatch_nonterminal_polls hpre (rfl : initWatchState.watching = true)
  have hsplit : ∀ r rest2, runWatch initWatchState (pre ++ r :: rest2)
      = runWatch (checkProgress (runWatch initWatchState pre) r) rest2 := by
    intro r rest2
    rw [runWatch_append]
    rfl
  have c40 := checkProgress_completed hp.1 p
  have c30 := checkProgress_failed hp.1 q
  have f40 := runWatch_inactive c40.2 rest
  have f30 := runWatch_inactive c30.2.1 rest
  refine ⟨by rw [hp.2.1]; rfl, hp.1, ?_, ?_, ?_, ?_, ?_⟩
  · rw [hsplit, f40, c40.1, hp.2.1]; rfl
  · rw [hsplit, f40, c40.2]
  · rw [hsplit, f30, c30.1, hp.2.1]; rfl
  · rw [hsplit, f30, c30.2.1]
  · rw [hsplit, f30, c30.2.2]

/-- Witness for the amended C2 theorem at the spec's Scenario C sequence
10→20→20→40 (with a trailing poll that must be ignored). -/
theorem watcher_terminal_callback_fires_once_witness :
    (runWatch initWatchState
        [PollResult.ok 10 0, PollResult.ok 20 1, PollResult.ok 20 2]).modelFetched = 0 ∧
    (runWatch initWatchState
        [PollResult.ok 10 0, PollResult.ok 20 1, PollResult.ok 20 2]).watching = true ∧
    (runWatch initWatchState
        ([PollResult.ok 10 0, PollResult.ok 20 1, PollResult.ok 20 2] ++
          PollResult.ok 40 3 :: [PollResult.ok 20 9])).modelFetched = 1 ∧
    (runWatch initWatchState
        ([PollResult.ok 10 0, PollResult.ok 20 1, PollResult.ok 20 2] ++
          PollResult.ok 40 3 :: [PollResult.ok 20 9])).watching = false ∧
    (runWatch initWatchState
        ([PollResult.ok 10 0, PollResult.ok 20 1, PollResult.ok 20 2] ++
          PollResult.ok 30 4 :: [PollResult.ok 20 9])).modelFetched = 0 ∧
    (runWatch initWatchState
        ([PollResult.ok 10 0, PollResult.ok 20 1, PollResult.ok 20 2] ++
          PollResult.ok 30 4 :: [PollResult.ok 20 9])).watching = false ∧
    (runWatch initWatchState
        ([PollResult.ok 10 0, PollResult.ok 20 1, PollResult.ok 20 2] ++
          PollResult.ok 30 4 :: [PollResult.ok 20 9])).error
      = some jobFailedMessage :=
  watcher_terminal_callback_fires_once
    [PollResult.ok 10 0, PollResult.ok 20 1, PollResult.ok 20 2]
    [PollResult.ok 20 9] 3 4 (by decide)

/-- C9 counterexample: the very first thrown poll clears the interval and
surfaces an error — there is no bounded retry and polling cannot continue
afterwards, contradicting the claim that transient poll errors are retried
and leave the watch state unchanged. -/
theorem watcher_error_stops_watch_cex :
    (checkProgress initWatchState PollResult.err).watching = false ∧
    (checkProgress initWatchState PollResult.err).error = some pollErrorMessage := by
  decide

/-- C9 (amended): a thrown poll (network/timeout) immediately stops the
watch: the interval is cleared, the poll-failure message is surfaced, the
loading flag resets, the terminal callback is not invoked, and no further
observation changes the state — there is no retry. -/
theorem watcher_poll_error_stops_watch (s : WatchState) (rest : List PollResult)
    (h : s.watching = true) :
    (checkProgress s PollResult.err).watching = false ∧
    (checkProgress s PollResult.err).loading = false ∧
    (checkProgress s PollResult.err).error = some pollErrorMessage ∧
    (checkProgress s PollResult.err).modelFetched = s.modelFetched ∧
    runWatch (checkProgress s PollResult.err) rest = checkProgress s PollResult.err := by
  have h1 : checkProgress s PollResult.err
      = { s with watching := false, loading := false,
                 error := some pollErrorMessage } := by
    simp [checkProgress, h]
  exact ⟨by rw [h1], by rw [h1], by rw [h1], by rw [h1],
         runWatch_inactive (by rw [h1]) rest⟩

/-! ## Concrete collaborators used by witnesses and counterexamples -/

/-- Concrete `obj2gltf` stand-in for witness runs: a fixed 4-byte buffer. -/
def glbOfTest : String → List (String × List Nat) → List Nat :=
  fun _ _ => [103, 108, 84, 70]

/-- Concrete sharp stand-in for witness runs: always succeeds, doubling the
byte list. -/
def sharpDouble : List Nat → Option (List Nat) :=
  fun b => some (b ++ b)

/-- Concrete sharp stand-in that throws on the one-byte buffer `[1]` and
doubles anything else. -/
def sharpFailOn1 : List Nat → Option (List Nat) :=
  fun b => if b = [1] then none else some (b ++ b)

/-- Whether a filesystem operation is a rename. -/
def FsOp.isRename : FsOp → Bool
  | .renameFile _ _ => true
  | _ => false

/-- Whether a filesystem operation deletes the given path. -/
def FsOp.deletes (p : String) : FsOp → Bool
  | .deleteFile q => q = p
  | _ => false

theorem cacheGet_cachePut (c : List (String × List Nat)) (k : String)
    (v : List Nat) : cacheGet (cachePut c k v) k = some v := by
  induction c with
  | nil => simp [cachePut, cacheGet]
  | cons p rest ih =>
    obtain ⟨k2, v2⟩ := p
    by_cases h : k2 = k
    · simp [cachePut, cacheGet, h]
    · simp [cachePut, cacheGet, h, ih]

/-- Witness for the amended C9 theorem: one error observed from the initial
watch state, followed by a Completed poll that must be ignored. -/
theorem watcher_poll_error_stops_watch_witness :
    (checkProgress initWatchState PollResult.err).watching = false ∧
    (checkProgress initWatchState PollResult.err).loading = false ∧
    (checkProgress initWatchState PollResult.err).error = some pollErrorMessage ∧
    (checkProgress initWatchState PollResult.err).modelFetched
      = initWatchState.modelFetched ∧
    runWatch (checkProgress initWatchState PollResult.err) [PollResult.ok 40 1]
      = checkProgress initWatchState PollResult.err :=
  watcher_poll_error_stops_watch initWatchState [PollResult.ok 40 1] rfl

/-- C1 (confirmed): for an archive with no entry whose name ends in `.obj`,
`convertZipToGlb` fails with the missing-mesh error, and the model endpoint
then leaves the cache untouched and writes no GLB file; for an archive with
at least one such entry, the first matching entry (archive order) is the one
selected as the mesh. -/
theorem convert_missing_mesh_or_first_obj
    (glbOf : String → List (String × List Nat) → List Nat)
    (sharpPng : List Nat → Option (List Nat)) (tmpDir : String)
    (taskId : String) (dirExists : Bool) (cache : List (String × List Nat))
    (entries : List ZipEntry) :
    ((∀ e ∈ entries, isObjName e.entryName = false) →
       convertZipToGlb glbOf sharpPng tmpDir entries = .error .missingMesh ∧
       (cacheGet cache (taskId ++ ".glb") = none →
         (getModel glbOf sharpPng tmpDir 40 taskId entries dirExists cache).cache
             = cache ∧
         (getModel glbOf sharpPng tmpDir 40 taskId entries dirExists cache).cacheOps
             = [] ∧
         (getModel glbOf sharpPng tmpDir 40 taskId entries dirExists cache).response
             = .error (.convError .missingMesh))) ∧
    (∀ e, entries.find? (fun e => isObjName e.entryName) = some e →
       ∃ r, convertZipToGlb glbOf sharpPng tmpDir entries = .ok r ∧
            r.objName = e.entryName) := by
  constructor
  · intro hnone
    have hfind : entries.find? (fun e => isObjName e.entryName) = none := by
      rw [List.find?_eq_none]
      intro e he
      simp [hnone e he]
    have hconv : convertZipToGlb glbOf sharpPng tmpDir entries
        = .error .missingMesh := by
      unfold convertZipToGlb
      rw [hfind]
    refine ⟨hconv, fun hmiss => ?_⟩
    simp [getModel, hmiss, hconv]
  · intro e hfind
    unfold convertZipToGlb
    rw [hfind]
    exact ⟨_, rfl, rfl⟩

/-- Witness for C1: a meshless archive fails without a cache write, and an
archive with two `.obj` entries selects the first one. -/
theorem convert_missing_mesh_or_first_obj_witness :
    (convertZipToGlb glbOfTest sharpDouble "tmpd" [ZipEntry.mk "readme.txt" [1]]
        = .error .missingMesh ∧
     (getModel glbOfTest sharpDouble "tmpd" 40 "t9" [ZipEntry.mk "readme.txt" [1]]
        true []).cache = [] ∧
     (getModel glbOfTest sharpDouble "tmpd" 40 "t9" [ZipEntry.mk "readme.txt" [1]]
        true []).cacheOps = [] ∧
     (getModel glbOfTest sharpDouble "tmpd" 40 "t9" [ZipEntry.mk "readme.txt" [1]]
        true []).response = .error (.convError .missingMesh)) ∧
    (∃ r, convertZipToGlb glbOfTest sharpDouble "tmpd"
        [ZipEntry.mk "a/x.obj" [2], ZipEntry.mk "b/y.obj" [3]] = .ok r ∧
      r.objName = "a/x.obj") := by
  constructor
  · have h := (convert_missing_mesh_or_first_obj glbOfTest sharpDouble "tmpd" "t9"
        true [] [ZipEntry.mk "readme.txt" [1]]).1 (by decide)
    exact ⟨h.1, (h.2 rfl).1, (h.2 rfl).2.1, (h.2 rfl).2.2⟩
  · exact (convert_missing_mesh_or_first_obj glbOfTest sharpDouble "tmpd" "t9"
        true [] [ZipEntry.mk "a/x.obj" [2], ZipEntry.mk "b/y.obj" [3]]).2
      (ZipEntry.mk "a/x.obj" [2]) (by decide)

/-- C3 (confirmed): the cache lookup runs before the pipeline, so a second
`getModel` request for the same task id after a successful first one is a
cache hit — the conversion does not run again, the returned bytes equal the
bytes of the first successful write, and no further cache mutation or
filesystem write happens. -/
theorem getModel_idempotent
    (glbOf : String → List (String × List Nat) → List Nat)
    (sharpPng : List Nat → Option (List Nat)) (tmpDir : String)
    (taskId : String) (entries : List ZipEntry) (dirExists1 dirExists2 : Bool)
    (cache : List (String × List Nat)) (g : List Nat)
    (h1 : cacheGet cache (taskId ++ ".glb") = none)
    (h2 : (getModel glbOf sharpPng tmpDir 40 taskId entries dirExists1 cache).response
        = .ok g) :
    (getModel glbOf sharpPng tmpDir 40 taskId entries dirExists1 cache).conversionRan
        = true ∧
    (getModel glbOf sharpPng tmpDir 40 taskId entries dirExists2
        (getModel glbOf sharpPng tmpDir 40 taskId entries dirExists1 cache).cache).conversionRan
        = false ∧
    (getModel glbOf sharpPng tmpDir 40 taskId entries dirExists2
        (getModel glbOf sharpPng tmpDir 40 taskId entries dirExists1 cache).cache).response
        = .ok g ∧
    (getModel glbOf sharpPng tmpDir 40 taskId entries dirExists2
        (getModel glbOf sharpPng tmpDir 40 taskId entries dirExists1 cache).cache).cache
        = (getModel glbOf sharpPng tmpDir 40 taskId entries dirExists1 cache).cache ∧
    (getModel glbOf sharpPng tmpDir 40 taskId entries dirExists2
        (getModel glbOf sharpPng tmpDir 40 taskId entries dirExists1 cache).cache).cacheOps
        = [] := by
  cases hconv : convertZipToGlb glbOf sharpPng tmpDir entries with
  | error e =>
    exfalso
    rw [show (getModel glbOf sharpPng tmpDir 40 taskId entries dirExists1 cache).response
        = .error (.convError e) by simp [getModel, h1, hconv]] at h2
    exact Except.noConfusion h2
  | ok r =>
    have hfirst : getModel glbOf sharpPng tmpDir 40 taskId entries dirExists1 cache
        = { response := .ok r.glb
          , cache := cachePut cache (taskId ++ ".glb") r.glb
          , conversionRan := true
          , cacheOps := (if dirExists1 then [] else [FsOp.mkdir glbDir]) ++
              [FsOp.writeFile (joinPath glbDir (taskId ++ ".glb")) r.glb] } := by
      simp [getModel, h1, hconv]
    have hg : r.glb = g := by
      rw [hfirst] at h2
      exact (Except.ok.injEq .. ▸ h2 : r.glb = g)
    have hhit : cacheGet (cachePut cache (taskId ++ ".glb") r.glb) (taskId ++ ".glb")
        = some r.glb := cacheGet_cachePut ..
    subst hg
    refine ⟨by rw [hfirst], ?_, ?_, ?_, ?_⟩ <;>
      rw [hfirst] <;> simp [getModel, hhit]

/-- Witness for C3: two consecutive requests for task `t1` starting from an
empty cache directory. -/
theorem getModel_idempotent_witness :
    (getModel glbOfTest sharpDouble "tmpd" 40 "t1" [ZipEntry.mk "model.obj" [109]]
        true []).conversionRan = true ∧
    (getModel glbOfTest sharpDouble "tmpd" 40 "t1" [ZipEntry.mk "model.obj" [109]]
        true (getModel glbOfTest sharpDouble "tmpd" 40 "t1"
          [ZipEntry.mk "model.obj" [109]] true []).cache).conversionRan = false ∧
    (getModel glbOfTest sharpDouble "tmpd" 40 "t1" [ZipEntry.mk "model.obj" [109]]
        true (getModel glbOfTest sharpDouble "tmpd" 40 "t1"
          [ZipEntry.mk "model.obj" [109]] true []).cache).response
      = .ok [103, 108, 84, 70] ∧
    (getModel glbOfTest sharpDouble "tmpd" 40 "t1" [ZipEntry.mk "model.obj" [109]]
        true (getModel glbOfTest sharpDouble "tmpd" 40 "t1"
          [ZipEntry.mk "model.obj" [109]] true []).cache).cache
      = (getModel glbOfTest sharpDouble "tmpd" 40 "t1"
          [ZipEntry.mk "model.obj" [109]] true []).cache ∧
    (getModel glbOfTest sharpDouble "tmpd" 40 "t1" [ZipEntry.mk "model.obj" [109]]
        true (getModel glbOfTest sharpDouble "tmpd" 40 "t1"
          [ZipEntry.mk "model.obj" [109]] true []).cache).cacheOps = [] :=
  getModel_idempotent glbOfTest sharpDouble "tmpd" "t1"
    [ZipEntry.mk "model.obj" [109]] true true [] [103, 108, 84, 70] rfl rfl

/-- C4 counterexample: on a concrete cache-miss conversion the persistence
trace is a single direct write to the final `t1.glb` path — no temporary
file, no rename — refuting the claimed write-to-temporary-then-atomic-rename
behaviour of the cache put. -/
theorem cache_write_not_atomic_cex :
    (getModel glbOfTest sharpDouble "tmpd" 40 "t1" [ZipEntry.mk "model.obj" [109]]
        true []).cacheOps
      = [FsOp.writeFile "uploads/users/projects/model/glb/t1.glb"
          [103, 108, 84, 70]] ∧
    ((getModel glbOfTest sharpDouble "tmpd" 40 "t1" [ZipEntry.mk "model.obj" [109]]
        true []).cacheOps.all (fun op => ! op.isRename)) = true ∧
    (getModel glbOfTest sharpDouble "tmpd" 40 "t1" [ZipEntry.mk "model.obj" [109]]
        true []).response = .ok [103, 108, 84, 70] :=
  ⟨rfl, rfl, rfl⟩

/-- C4 (amended): on a cache miss with a successful conversion, the asset is
persisted by a single direct `fs.writeFileSync` to the final `{taskId}.glb`
path (preceded only by creating the cache directory when absent); no
temporary file is written and no rename occurs, so the write is not performed
atomically via a temp file. -/
theorem cache_write_direct
    (glbOf : String → List (String × List Nat) → List Nat)
    (sharpPng : List Nat → Option (List Nat)) (tmpDir : String)
    (taskId : String) (entries : List ZipEntry) (dirExists : Bool)
    (cache : List (String × List Nat)) (r : ConvertResult)
    (h1 : cacheGet cache (taskId ++ ".glb") = none)
    (h2 : convertZipToGlb glbOf sharpPng tmpDir entries = .ok r) :
    (getModel glbOf sharpPng tmpDir 40 taskId entries dirExists cache).cacheOps
      = (if dirExists then [] else [FsOp.mkdir glbDir]) ++
        [FsOp.writeFile (joinPath glbDir (taskId ++ ".glb")) r.glb] ∧
    ∀ op ∈ (getModel glbOf sharpPng tmpDir 40 taskId entries dirExists cache).cacheOps,
      op.isRename = false := by
  have hops : (getModel glbOf sharpPng tmpDir 40 taskId entries dirExists cache).cacheOps
      = (if dirExists then [] else [FsOp.mkdir glbDir]) ++
        [FsOp.writeFile (joinPath glbDir (taskId ++ ".glb")) r.glb] := by
    simp [getModel, h1, h2]
  refine ⟨hops, ?_⟩
  intro op hop
  rw [hops] at hop
  rcases List.mem_append.mp hop with hop | hop
  · cases dirExists with
    | true => simp at hop
    | false =>
      simp at hop
      simp [hop, FsOp.isRename]
  · simp at hop
    simp [hop, FsOp.isRename]

/-- Witness for the amended C4 theorem, with the cache directory initially
absent so that the mkdir branch is exercised. -/
theorem cache_write_direct_witness :
    (getModel glbOfTest sharpDouble "tmpd" 40 "t1" [ZipEntry.mk "model.obj" [109]]
        false []).cacheOps
      = (if false then [] else [FsOp.mkdir glbDir]) ++
        [FsOp.writeFile (joinPath glbDir ("t1" ++ ".glb")) [103, 108, 84, 70]] ∧
    ∀ op ∈ (getModel glbOfTest sharpDouble "tmpd" 40 "t1"
        [ZipEntry.mk "model.obj" [109]] false []).cacheOps,
      op.isRename = false :=
  cache_write_direct glbOfTest sharpDouble "tmpd" "t1"
    [ZipEntry.mk "model.obj" [109]] false []
    ⟨[103, 108, 84, 70], "model.obj",
      [FsOp.mkdir "tmpd", FsOp.writeFile "tmpd/model.obj" [109],
       FsOp.writeFile "tmpd/debug_result.glb" [103, 108, 84, 70]]⟩ rfl rfl

/-! ## Scan equivalence for the relink (C5) -/

theorem joinNl_cons_cons (c : Char) (hd : List Char) (tl : List (List Char)) :
    joinNl ((c :: hd) :: tl) = c :: joinNl (hd :: tl) := by
  cases tl <;> simp [joinNl]

theorem joinNl_splitOnNl (cs : List Char) : joinNl (splitOnNl cs) = cs := by
  induction cs with
  | nil => rfl
  | cons c rest ih =>
    by_cases hc : c = '\n'
    · subst hc
      simp only [splitOnNl, if_true]
      cases hsp : splitOnNl rest with
      | nil => exact absurd hsp (splitOnNl_ne_nil rest)
      | cons hd tl =>
        rw [hsp] at ih
        show joinNl ([] :: hd :: tl) = '\n' :: rest
        rw [show joinNl ([] :: hd :: tl) = [] ++ '\n' :: joinNl (hd :: tl) from rfl]
        rw [List.nil_append, ih]
    · simp only [splitOnNl, hc, if_false]
      cases hsp : splitOnNl rest with
      | nil => exact absurd hsp (splitOnNl_ne_nil rest)
      | cons hd tl =>
        rw [hsp] at ih
        rw [joinNl_cons_cons, ih]

theorem mem_of_mem_splitOnNl {cs l : List Char} (h : l ∈ splitOnNl cs) :
    ∀ x ∈ l, x ∈ cs := by
  induction cs generalizing l with
  | nil =>
    simp [splitOnNl] at h
    subst h
    intro x hx
    simp at hx
  | cons c rest ih =>
    simp only [splitOnNl] at h
    by_cases hc : c = '\n'
    · simp only [hc, if_true, List.mem_cons] at h
      rcases h with rfl | h
      · intro x hx
        simp at hx
      · intro x hx
        exact List.mem_cons_of_mem _ (ih h x hx)
    · simp only [hc, if_false] at h
      cases hr : splitOnNl rest with
      | nil => exact absurd hr (splitOnNl_ne_nil rest)
      | cons hd tl =>
        rw [hr] at h
        rcases List.mem_cons.mp h with rfl | h
        · intro x hx
          rcases List.mem_cons.mp hx with rfl | hx
          · exact List.mem_cons_self ..
          · exact List.mem_cons_of_mem _ (ih (hr ▸ List.mem_cons_self hd tl) x hx)
        · intro x hx
          exact List.mem_cons_of_mem _ (ih (hr ▸ List.mem_cons_of_mem hd h) x hx)

theorem take6_append_of_le {l : List Char} (s : List Char) (hlen : 6 ≤ l.length) :
    (l ++ s).take 6 = l.take 6 ∧ (l ++ s).drop 6 = l.drop 6 ++ s := by
  have h1 : l.take 6 ++ (l.drop 6 ++ s) = l ++ s := by
    rw [← List.append_assoc, List.take_append_drop]
  have h2 : (l.take 6).length = 6 := by
    rw [List.length_take]
    omega
  constructor
  · rw [← h1, List.take_left' h2]
  · rw [← h1, List.drop_left' h2]

theorem matchMtllibAt_eq_none {l suffix : List Char}
    (hsafe : mtllibSafeLine l = true) (hdir : isMtllibLineChars l = false)
    (hsuf : suffix = [] ∨ ∃ rest, suffix = '\n' :: rest) :
    matchMtllibAt (l ++ suffix) = none := by
  unfold matchMtllibAt
  by_cases h6 : (l ++ suffix).take 6 = mtllibLit
  swap
  · rw [if_neg h6]
  rw [if_pos h6]
  by_cases hlen : 6 ≤ l.length
  · have htd := take6_append_of_le suffix hlen
    have hl6 : l.take 6 = mtllibLit := by rw [← htd.1, h6]
    rw [htd.2]
    cases hld : l.drop 6 with
    | nil =>
      exfalso
      simp [mtllibSafeLine, hl6, hld] at hsafe
    | cons c t =>
      simp only [isMtllibLineChars, hl6, if_true, hld] at hdir
      simp only [hld, List.cons_append]
      simp [hdir]
  · exfalso
    push_neg at hlen
    rcases hsuf with rfl | ⟨rest, rfl⟩
    · have := congrArg List.length h6
      simp only [List.length_take, List.append_nil, mtllibLit] at this
      simp at this
      omega
    · have hmem : '\n' ∈ (l ++ '\n' :: rest).take 6 := by
        rw [List.take_append_eq_append_take,
            List.take_of_length_le (le_of_lt hlen)]
        refine List.mem_append.mpr (Or.inr ?_)
        obtain ⟨k, hk⟩ : ∃ k, 6 - l.length = k + 1 := ⟨5 - l.length, by omega⟩
        rw [hk, List.take_succ_cons]
        exact List.mem_cons_self ..
      rw [h6] at hmem
      revert hmem
      decide

theorem matchMtllibAt_eq_some {l suffix : List Char}
    (hterm : ∀ c ∈ l, isLineTerminator c = false)
    (hsafe : mtllibSafeLine l = true) (hdir : isMtllibLineChars l = true)
    (hsuf : suffix = [] ∨ ∃ rest, suffix = '\n' :: rest) :
    matchMtllibAt (l ++ suffix) = some suffix := by
  have hl6 : l.take 6 = mtllibLit := by
    by_contra hcon
    simp [isMtllibLineChars, hcon] at hdir
  cases hld : l.drop 6 with
  | nil => simp [mtllibSafeLine, hl6, hld] at hsafe
  | cons c t =>
    have hwc : isJsWhitespace c = true := by
      simpa [isMtllibLineChars, hl6, hld] using hdir
    have hrun : ((c :: t).dropWhile isJsWhitespace).isEmpty = false := by
      have hx := hsafe
      simp only [mtllibSafeLine, hl6, if_true, hld, hwc, Bool.not_true,
        Bool.false_or, Bool.not_eq_true'] at hx
      exact hx
    have hlen : 6 ≤ l.length := by
      have := congrArg List.length hl6
      simp only [List.length_take, mtllibLit] at this
      simp at this
      omega
    have htd := take6_append_of_le suffix hlen
    have hdropmem : ∀ x ∈ (c :: t), isLineTerminator x = false := by
      intro x hx
      refine hterm x ?_
      have : x ∈ l.drop 6 := by rw [hld]; exact hx
      have h1 : l.take 6 ++ l.drop 6 = l := List.take_append_drop 6 l
      rw [← h1]
      exact List.mem_append.mpr (Or.inr this)
    unfold matchMtllibAt
    rw [if_pos (by rw [htd.1, hl6]), htd.2, hld]
    simp only [List.cons_append, hwc, if_true]
    have hsplit : ((c :: t) ++ suffix).dropWhile isJsWhitespace
        = ((c :: t).dropWhile isJsWhitespace) ++ suffix := by
      rw [List.dropWhile_append, hrun]
      simp
    rw [show (c :: (t ++ suffix)) = (c :: t) ++ suffix from rfl, hsplit]
    have hall : ∀ x ∈ (c :: t).dropWhile isJsWhitespace,
        (fun d => !isLineTerminator d) x = true := by
      intro x hx
      have := hdropmem x (List.dropWhile_subset _ hx)
      simp [this]
    rw [List.dropWhile_append_of_pos hall]
    rcases hsuf with rfl | ⟨rest, rfl⟩
    · rfl
    · simp [List.dropWhile_cons, isLineTerminator]

theorem matchMtllibAt_length {x r : List Char}
    (h : matchMtllibAt x = some r) : r.length < x.length := by
  unfold matchMtllibAt at h
  split at h
  case isFalse => exact Option.noConfusion h
  case isTrue h6 =>
    split at h
    case h_1 => exact Option.noConfusion h
    case h_2 c t hld =>
      split at h
      case isFalse => exact Option.noConfusion h
      case isTrue hw =>
        injection h with hr
        have h1 : r.length ≤ ((c :: t).dropWhile isJsWhitespace).length := by
          rw [← hr]
          exact (List.dropWhile_sublist _).length_le
        have h2 : ((c :: t).dropWhile isJsWhitespace).length ≤ (c :: t).length :=
          (List.dropWhile_sublist _).length_le
        have h3 : (x.drop 6).length = (c :: t).length := by rw [hld]
        rw [List.length_drop] at h3
        simp only [List.length_cons] at h2 h3
        omega

theorem replaceMtllibAux_nil (repl : List Char) (f : Nat) (b : Bool) :
    replaceMtllibAux repl f b [] = [] := by
  cases f <;> rfl

theorem replaceMtllibAux_fuel (repl : List Char) :
    ∀ n₁ {n₂ : Nat} {l : List Char} {b : Bool}, l.length ≤ n₁ → l.length ≤ n₂ →
      replaceMtllibAux repl n₁ b l = replaceMtllibAux repl n₂ b l := by
  intro n₁
  induction n₁ using Nat.strong_induction_on with
  | _ n₁ ih =>
    intro n₂ l b h1 h2
    cases l with
    | nil => rw [replaceMtllibAux_nil, replaceMtllibAux_nil]
    | cons c rest =>
      cases n₁ with
      | zero => simp at h1
      | succ m =>
        cases n₂ with
        | zero => simp at h2
        | succ k =>
          have hm : m < m + 1 := Nat.lt_succ_self m
          have hrest1 : rest.length ≤ m := by
            simp only [List.length_cons] at h1
            omega
          have hrest2 : rest.length ≤ k := by
            simp only [List.length_cons] at h2
            omega
          cases b with
          | false =>
            show c :: replaceMtllibAux repl m (isLineTerminator c) rest
              = c :: replaceMtllibAux repl k (isLineTerminator c) rest
            rw [ih m hm hrest1 hrest2]
          | true =>
            simp only [replaceMtllibAux, if_pos rfl]
            cases hmm : matchMtllibAt (c :: rest) with
            | none =>
              show c :: replaceMtllibAux repl m (isLineTerminator c) rest
                = c :: replaceMtllibAux repl k (isLineTerminator c) rest
              rw [ih m hm hrest1 hrest2]
            | some r =>
              show repl ++ replaceMtllibAux repl m false r
                = repl ++ replaceMtllibAux repl k false r
              have hrlen := matchMtllibAt_length hmm
              simp only [List.length_cons] at hrlen
              have hx1 : r.length ≤ m := by omega
              have hx2 : r.length ≤ k := by omega
              rw [ih m hm hx1 hx2]

theorem replaceMtllibAux_copy (repl : List Char) {l : List Char} (s : List Char)
    (hterm : ∀ c ∈ l, isLineTerminator c = false) :
    replaceMtllibAux repl (l ++ s).length false (l ++ s)
      = l ++ replaceMtllibAux repl s.length false s := by
  induction l with
  | nil => simp
  | cons c r ih =>
    have hc : isLineTerminator c = false := hterm c (List.mem_cons_self c r)
    have hr : ∀ x ∈ r, isLineTerminator x = false :=
      fun x hx => hterm x (List.mem_cons_of_mem c hx)
    show replaceMtllibAux repl ((r ++ s).length + 1) false (c :: (r ++ s))
      = c :: (r ++ replaceMtllibAux repl s.length false s)
    rw [show replaceMtllibAux repl ((r ++ s).length + 1) false (c :: (r ++ s))
        = c :: replaceMtllibAux repl (r ++ s).length (isLineTerminator c) (r ++ s)
      from rfl]
    rw [hc, ih hr]

theorem replaceMtllibAux_lines (repl : List Char) :
    ∀ ls : List (List Char),
      (∀ l ∈ ls, (∀ c ∈ l, isLineTerminator c = false) ∧ mtllibSafeLine l = true) →
      replaceMtllibAux repl (joinNl ls).length true (joinNl ls)
        = joinNl (ls.map (fun l => if isMtllibLineChars l then repl else l)) := by
  intro ls
  induction ls with
  | nil => intro _; rfl
  | cons l rest ih =>
    intro hs
    have hl := hs l (List.mem_cons_self l rest)
    have hrest : ∀ x ∈ rest,
        (∀ c ∈ x, isLineTerminator c = false) ∧ mtllibSafeLine x = true :=
      fun x hx => hs x (List.mem_cons_of_mem l hx)
    cases rest with
    | nil =>
      show replaceMtllibAux repl l.length true l
        = joinNl [if isMtllibLineChars l then repl else l]
      by_cases hdir : isMtllibLineChars l = true
      · have hm : matchMtllibAt l = some [] := by
          have := matchMtllibAt_eq_some hl.1 hl.2 hdir (Or.inl rfl)
          simpa using this
        cases l with
        | nil => simp [isMtllibLineChars, mtllibLit] at hdir
        | cons c r =>
          show replaceMtllibAux repl (r.length + 1) true (c :: r) = _
          simp only [replaceMtllibAux, if_pos rfl, hm, replaceMtllibAux_nil]
          simp [joinNl, hdir]
      · have hdirf : isMtllibLineChars l = false := by
          revert hdir
          cases isMtllibLineChars l <;> simp
        have hm : matchMtllibAt l = none := by
          have := matchMtllibAt_eq_none hl.2 hdirf (Or.inl rfl)
          simpa using this
        cases l with
        | nil => simp [replaceMtllibAux_nil, joinNl, isMtllibLineChars, mtllibLit]
        | cons c r =>
          have hc : isLineTerminator c = false := hl.1 c (List.mem_cons_self c r)
          have hr : ∀ x ∈ r, isLineTerminator x = false :=
            fun x hx => hl.1 x (List.mem_cons_of_mem c hx)
          show replaceMtllibAux repl (r.length + 1) true (c :: r) = _
          simp only [replaceMtllibAux, if_pos rfl, hm, hc]
          have := replaceMtllibAux_copy repl [] hr
          simp only [List.append_nil, replaceMtllibAux_nil] at this
          rw [this]
          simp [joinNl, hdirf]
    | cons l2 rest2 =>
      have ihr := ih hrest
      by_cases hdir : isMtllibLineChars l = true
      · cases l with
        | nil => simp [isMtllibLineChars, mtllibLit] at hdir
        | cons c r =>
          have hm : matchMtllibAt (c :: (r ++ '\n' :: joinNl (l2 :: rest2)))
              = some ('\n' :: joinNl (l2 :: rest2)) :=
            matchMtllibAt_eq_some hl.1 hl.2 hdir
              (Or.inr ⟨joinNl (l2 :: rest2), rfl⟩)
          show replaceMtllibAux repl ((r ++ '\n' :: joinNl (l2 :: rest2)).length + 1)
              true (c :: (r ++ '\n' :: joinNl (l2 :: rest2))) = _
          simp only [replaceMtllibAux, if_pos rfl, hm]
          have hfuel : replaceMtllibAux repl (r ++ '\n' :: joinNl (l2 :: rest2)).length
                false ('\n' :: joinNl (l2 :: rest2))
              = replaceMtllibAux repl ((joinNl (l2 :: rest2)).length + 1)
                false ('\n' :: joinNl (l2 :: rest2)) := by
            refine replaceMtllibAux_fuel repl _ ?_ ?_
            · simp only [List.length_cons, List.length_append]
              omega
            · simp only [List.length_cons]
              omega
          rw [hfuel]
          rw [show replaceMtllibAux repl ((joinNl (l2 :: rest2)).length + 1)
                false ('\n' :: joinNl (l2 :: rest2))
              = '\n' :: replaceMtllibAux repl (joinNl (l2 :: rest2)).length
                true (joinNl (l2 :: rest2)) from rfl]
          rw [ihr]
          simp only [List.map]
          rw [if_pos hdir]
          rfl
      · have hdirf : isMtllibLineChars l = false := by
          revert hdir
          cases isMtllibLineChars l <;> simp
        cases l with
        | nil =>
          have hm : matchMtllibAt ('\n' :: joinNl (l2 :: rest2)) = none :=
            matchMtllibAt_eq_none hl.2 hdirf
              (Or.inr ⟨joinNl (l2 :: rest2), rfl⟩)
          show replaceMtllibAux repl ((joinNl (l2 :: rest2)).length + 1)
              true ('\n' :: joinNl (l2 :: rest2)) = _
          simp only [replaceMtllibAux, if_pos rfl, hm]
          rw [show isLineTerminator '\n' = true from rfl]
          rw [ihr]
          simp only [List.map]
          rw [hdirf]
          rfl
        | cons c r =>
          have hm : matchMtllibAt (c :: (r ++ '\n' :: joinNl (l2 :: rest2))) = none :=
            matchMtllibAt_eq_none hl.2 hdirf
              (Or.inr ⟨joinNl (l2 :: rest2), rfl⟩)
          have hc : isLineTerminator c = false := hl.1 c (List.mem_cons_self c r)
          have hr : ∀ x ∈ r, isLineTerminator x = false :=
            fun x hx => hl.1 x (List.mem_cons_of_mem c hx)
          show replaceMtllibAux repl ((r ++ '\n' :: joinNl (l2 :: rest2)).length + 1)
              true (c :: (r ++ '\n' :: joinNl (l2 :: rest2))) = _
          simp only [replaceMtllibAux, if_pos rfl, hm, hc]
          rw [replaceMtllibAux_copy repl ('\n' :: joinNl (l2 :: rest2)) hr]
          rw [show replaceMtllibAux repl ('\n' :: joinNl (l2 :: rest2)).length
                false ('\n' :: joinNl (l2 :: rest2))
              = '\n' :: replaceMtllibAux repl (joinNl (l2 :: rest2)).length
                true (joinNl (l2 :: rest2)) from rfl]
          rw [ihr]
          simp only [List.map]
          rw [hdirf]
          rfl

/-- C5 counterexample: ECMAScript `\s` includes the newline, so on the mesh
text `"mtllib \nabc"` the single match of `/^mtllib\s+.*$/gm` spans both
lines and the replacement destroys the bytes of the following line (`abc` is
gone from the output); likewise a bare `mtllib` line followed by a newline
matches and swallows the next line. This refutes "leaves every other byte of
the mesh text unchanged". -/
theorem relink_spans_newline_cex :
    relinkStep (some (ZipEntry.mk "odm_texturing/odm_textured_model_geo.mtl" [7]))
        "mtllib \nabc"
      = "mtllib odm_textured_model_geo.mtl" ∧
    relinkStep (some (ZipEntry.mk "odm_texturing/odm_textured_model_geo.mtl" [7]))
        "mtllib\nfoo"
      = "mtllib odm_textured_model_geo.mtl" := by
  constructor <;> rfl

/-- C5 (amended): with a material entry, on every mesh text whose line
terminators are plain `\n` and whose lines are regex-safe — any line-initial
`mtllib` is followed by whitespace that ends before the line break — the
replacement rewrites exactly the `mtllib` directive lines to `mtllib `
followed by the material's base filename (which contains no path separator)
and leaves every other line byte-identical; with no material entry the mesh
text is returned unmodified. On an unsafe line the greedy `\s+` crosses the
line break, so the match also consumes the following line (see the
counterexample). -/
theorem relink_linewise_when_safe (m : ZipEntry) (obj : String)
    (hterm : ∀ c ∈ obj.data, isLineTerminator c = true → c = '\n')
    (hsafe : ∀ l ∈ splitOnNl obj.data, mtllibSafeLine l = true) :
    relinkStep none obj = obj ∧
    '/' ∉ (basename m.entryName).data ∧
    (relinkStep (some m) obj).data
      = joinNl ((splitOnNl obj.data).map
          (relinkLineChars (basename m.entryName).data)) ∧
    (∀ line ∈ splitOnNl obj.data,
       (isMtllibLineChars line = true →
          relinkLineChars (basename m.entryName).data line
            = "mtllib ".data ++ (basename m.entryName).data) ∧
       (isMtllibLineChars line = false →
          relinkLineChars (basename m.entryName).data line = line)) := by
  refine ⟨rfl, basename_no_slash m.entryName, ?_, ?_⟩
  · have hlines : ∀ l ∈ splitOnNl obj.data,
        (∀ c ∈ l, isLineTerminator c = false) ∧ mtllibSafeLine l = true := by
      intro l hlmem
      refine ⟨?_, hsafe l hlmem⟩
      intro c hc
      by_contra hcon
      have ht : isLineTerminator c = true := by
        revert hcon
        cases isLineTerminator c <;> simp
      have hnl := hterm c (mem_of_mem_splitOnNl hlmem c hc) ht
      exact mem_splitOnNl_no_newline hlmem (hnl ▸ hc)
    have hmain := replaceMtllibAux_lines
      ("mtllib ".data ++ (basename m.entryName).data) (splitOnNl obj.data) hlines
    rw [joinNl_splitOnNl] at hmain
    show replaceMtllibAux ("mtllib ".data ++ (basename m.entryName).data)
        obj.data.length true obj.data = _
    rw [hmain]
    simp only [relinkLineChars]
    rfl
  · intro line _
    constructor
    · intro h
      simp [relinkLineChars, h]
    · intro h
      simp [relinkLineChars, h]

/-- Witness for the amended C5 theorem at a safe mesh: a deep-path directive
line, an ordinary geometry line and a near-miss `mtllibx` line. -/
theorem relink_linewise_when_safe_witness :
    relinkStep none "mtllib ../deep/path.mtl\nv 1 2 3\nmtllibx y"
      = "mtllib ../deep/path.mtl\nv 1 2 3\nmtllibx y" ∧
    '/' ∉ (basename "odm_texturing/odm_textured_model_geo.mtl").data ∧
    (relinkStep (some (ZipEntry.mk "odm_texturing/odm_textured_model_geo.mtl" [7]))
        "mtllib ../deep/path.mtl\nv 1 2 3\nmtllibx y").data
      = joinNl ((splitOnNl ("mtllib ../deep/path.mtl\nv 1 2 3\nmtllibx y").data).map
          (relinkLineChars (basename "odm_texturing/odm_textured_model_geo.mtl").data)) ∧
    (∀ line ∈ splitOnNl ("mtllib ../deep/path.mtl\nv 1 2 3\nmtllibx y").data,
       (isMtllibLineChars line = true →
          relinkLineChars (basename "odm_texturing/odm_textured_model_geo.mtl").data line
            = "mtllib ".data ++ (basename "odm_texturing/odm_textured_model_geo.mtl").data) ∧
       (isMtllibLineChars line = false →
          relinkLineChars (basename "odm_texturing/odm_textured_model_geo.mtl").data line
            = line)) :=
  relink_linewise_when_safe
    (ZipEntry.mk "odm_texturing/odm_textured_model_geo.mtl" [7])
    "mtllib ../deep/path.mtl\nv 1 2 3\nmtllibx y" (by decide) (by decide)

/-- C6 (confirmed): the compression batch yields exactly one entry per input
file at the same position and under the same name; a file on which the sharp
pipeline fails keeps its original bytes, a file on which it succeeds gets the
re-encoded bytes, and a non-`.png` file passes through untouched — each
entry's outcome depends only on that entry, so one failure never drops or
affects the others. -/
theorem compressAll_entrywise
    (sharpPng : List Nat → Option (List Nat)) (tmpDir : String)
    (files : List (String × List Nat)) (i : Nat) (name : String)
    (bytes : List Nat) (hi : files[i]? = some (name, bytes)) :
    (compressAllPngsInDirectory sharpPng tmpDir files).1.length = files.length ∧
    (isPngName name = false →
       (compressAllPngsInDirectory sharpPng tmpDir files).1[i]?
         = some (name, bytes)) ∧
    (isPngName name = true → sharpPng bytes = none →
       (compressAllPngsInDirectory sharpPng tmpDir files).1[i]?
         = some (name, bytes)) ∧
    (∀ nb, isPngName name = true → sharpPng bytes = some nb →
       (compressAllPngsInDirectory sharpPng tmpDir files).1[i]?
         = some (name, nb)) := by
  have hmap : (compressAllPngsInDirectory sharpPng tmpDir files).1[i]?
      = (files[i]?).map (fun f =>
          if isPngName f.1 then
            (f.1, (compressPng sharpPng (joinPath tmpDir f.1) f.2).1)
          else f) := by
    simp [compressAllPngsInDirectory, List.getElem?_map]
  refine ⟨by simp [compressAllPngsInDirectory], ?_, ?_, ?_⟩
  · intro hpng
    rw [hmap, hi]
    simp [hpng]
  · intro hpng hfail
    rw [hmap, hi]
    simp [hpng, compressPng, hfail]
  · intro nb hpng hok
    rw [hmap, hi]
    simp [hpng, compressPng, hok]

/-- Witness for C6: a three-texture batch in which the first texture's
pipeline fails — its bytes are retained, and the batch still has one entry
per input. -/
theorem compressAll_entrywise_witness :
    (compressAllPngsInDirectory sharpFailOn1 "t"
        [("a.png", [1]), ("b.png", [2]), ("c.jpg", [3])]).1.length
      = ([("a.png", [1]), ("b.png", [2]), ("c.jpg", [3])] :
          List (String × List Nat)).length ∧
    (isPngName "a.png" = false →
       (compressAllPngsInDirectory sharpFailOn1 "t"
          [("a.png", [1]), ("b.png", [2]), ("c.jpg", [3])]).1[0]?
         = some ("a.png", [1])) ∧
    (isPngName "a.png" = true → sharpFailOn1 [1] = none →
       (compressAllPngsInDirectory sharpFailOn1 "t"
          [("a.png", [1]), ("b.png", [2]), ("c.jpg", [3])]).1[0]?
         = some ("a.png", [1])) ∧
    (∀ nb, isPngName "a.png" = true → sharpFailOn1 [1] = some nb →
       (compressAllPngsInDirectory sharpFailOn1 "t"
          [("a.png", [1]), ("b.png", [2]), ("c.jpg", [3])]).1[0]?
         = some ("a.png", nb)) :=
  compressAll_entrywise sharpFailOn1 "t"
    [("a.png", [1]), ("b.png", [2]), ("c.jpg", [3])] 0 "a.png" [1] rfl

/-- C8 counterexample: a `.jpg` texture is collected by the archive scan
(`isTextureName` holds) and its transcode would succeed, yet the compression
pass — which filters on the `.png` suffix only — leaves its bytes unchanged,
refuting the claim that every collected raster texture is transcoded. -/
theorem jpg_not_transcoded_cex :
    isTextureName "photo.jpg" = true ∧
    isPngName "photo.jpg" = false ∧
    sharpDouble [5] = some [5, 5] ∧
    (compressAllPngsInDirectory sharpDouble "t" [("photo.jpg", [5])]).1
      = [("photo.jpg", [5])] :=
  ⟨rfl, rfl, rfl, rfl⟩

/-- C8 (amended): only the files whose lowercased name ends in `.png` are
transcoded by the compression pass; any other collected texture (`.jpg`,
`.jpeg`) passes through with its original bytes. -/
theorem compressAll_png_only
    (sharpPng : List Nat → Option (List Nat)) (tmpDir : String)
    (files : List (String × List Nat)) (name : String) (bytes : List Nat)
    (hmem : (name, bytes) ∈ files) :
    (isPngName name = false →
       (name, bytes) ∈ (compressAllPngsInDirectory sharpPng tmpDir files).1) ∧
    (∀ nb, isPngName name = true → sharpPng bytes = some nb →
       (name, nb) ∈ (compressAllPngsInDirectory sharpPng tmpDir files).1) := by
  constructor
  · intro hpng
    refine List.mem_map.mpr ⟨(name, bytes), hmem, ?_⟩
    simp [hpng]
  · intro nb hpng hok
    refine List.mem_map.mpr ⟨(name, bytes), hmem, ?_⟩
    simp [hpng, compressPng, hok]

/-- Witness for the amended C8 theorem: the untouched `.jpg` entry of a mixed
batch remains, bytes unchanged. -/
theorem compressAll_png_only_witness :
    (isPngName "photo.jpg" = false →
       ("photo.jpg", [5]) ∈ (compressAllPngsInDirectory sharpDouble "t"
          [("photo.jpg", [5]), ("a.png", [2])]).1) ∧
    (∀ nb, isPngName "photo.jpg" = true → sharpDouble [5] = some nb →
       ("photo.jpg", nb) ∈ (compressAllPngsInDirectory sharpDouble "t"
          [("photo.jpg", [5]), ("a.png", [2])]).1) :=
  compressAll_png_only sharpDouble "t"
    [("photo.jpg", [5]), ("a.png", [2])] "photo.jpg" [5] (by decide)

/-! ## Resize arithmetic (C7) -/

theorem roundHalfUp_le {a b n : Nat} (hb : 0 < b) (h : a ≤ n * b) :
    roundHalfUp a b ≤ n := by
  unfold roundHalfUp
  have h2 : 2 * a + b < (n + 1) * (2 * b) := by nlinarith
  have h3 := (Nat.div_lt_iff_lt_mul (by omega : 0 < 2 * b)).mpr h2
  omega

theorem roundHalfUp_self_mul {x b : Nat} (hb : 0 < b) :
    roundHalfUp (x * b) b = x := by
  unfold roundHalfUp
  have h1 : 2 * (x * b) + b = b * (2 * x + 1) := by ring
  have h2 : 2 * b = b * 2 := by ring
  rw [h1, h2, Nat.mul_div_mul_left _ _ hb]
  omega

theorem fitInside_branch2_lt {w h maxW maxH : Nat}
    (hW : 1 ≤ maxW) (hfit : ¬(w ≤ maxW ∧ h ≤ maxH))
    (hbr : maxW * h ≤ maxH * w) : maxW < w := by
  by_contra hcon
  push_neg at hcon
  have hhH : maxH < h := by omega
  have c1 : maxH * w ≤ maxH * maxW := Nat.mul_le_mul_left maxH hcon
  have c2 : maxH * maxW < h * maxW :=
    (Nat.mul_lt_mul_right (by omega : 0 < maxW)).mpr hhH
  have hcomm : maxW * h = h * maxW := Nat.mul_comm maxW h
  omega

theorem fitInside_branch3_lt {w h maxW maxH : Nat}
    (hH : 1 ≤ maxH) (hfit : ¬(w ≤ maxW ∧ h ≤ maxH))
    (hbr : ¬ maxW * h ≤ maxH * w) : maxH < h := by
  by_contra hcon
  push_neg at hcon hbr
  have hWw : maxW < w := by omega
  have c1 : maxW * h ≤ maxW * maxH := Nat.mul_le_mul_left maxW hcon
  have c2 : maxW * maxH < w * maxH :=
    (Nat.mul_lt_mul_right (by omega : 0 < maxH)).mpr hWw
  have hcomm : maxH * w = w * maxH := Nat.mul_comm maxH w
  omega

theorem fitInside_bounds {w h maxW maxH : Nat} (hw : 1 ≤ w) (hh : 1 ≤ h)
    (hW : 1 ≤ maxW) (hH : 1 ≤ maxH) :
    (fitInside w h maxW maxH).1 ≤ w ∧ (fitInside w h maxW maxH).1 ≤ maxW ∧
    (fitInside w h maxW maxH).2 ≤ h ∧ (fitInside w h maxW maxH).2 ≤ maxH := by
  unfold fitInside
  by_cases hfit : w ≤ maxW ∧ h ≤ maxH
  · simp only [hfit, if_true]
    exact ⟨le_refl w, hfit.1, le_refl h, hfit.2⟩
  · simp only [hfit, if_false]
    by_cases hbr : maxW * h ≤ maxH * w
    · have hWw := fitInside_branch2_lt hW hfit hbr
      simp only [hbr, if_true]
      refine ⟨le_of_lt hWw, le_refl maxW, ?_, ?_⟩
      · refine Nat.max_le.mpr ⟨hh, ?_⟩
        refine roundHalfUp_le (by omega) ?_
        calc h * maxW ≤ h * w := Nat.mul_le_mul_left h (le_of_lt hWw)
          _ = h * w := rfl
      · refine Nat.max_le.mpr ⟨hH, ?_⟩
        refine roundHalfUp_le (by omega) ?_
        calc h * maxW = maxW * h := Nat.mul_comm h maxW
          _ ≤ maxH * w := hbr
    · have hHh := fitInside_branch3_lt hH hfit hbr
      simp only [hbr, if_false]
      refine ⟨?_, ?_, le_of_lt hHh, le_refl maxH⟩
      · refine Nat.max_le.mpr ⟨hw, ?_⟩
        refine roundHalfUp_le (by omega) ?_
        exact Nat.mul_le_mul_left w (le_of_lt hHh)
      · refine Nat.max_le.mpr ⟨hW, ?_⟩
        refine roundHalfUp_le (by omega) ?_
        have hlt : maxH * w < maxW * h := by omega
        calc w * maxH = maxH * w := Nat.mul_comm w maxH
          _ ≤ maxW * h := le_of_lt hlt

theorem fitInside_uniform {w h maxW maxH : Nat} (hw : 1 ≤ w) (hh : 1 ≤ h)
    (hW : 1 ≤ maxW) (hH : 1 ≤ maxH) :
    ∃ a b, 0 < b ∧ a ≤ b ∧
      fitInside w h maxW maxH
        = (max 1 (roundHalfUp (w * a) b), max 1 (roundHalfUp (h * a) b)) := by
  unfold fitInside
  by_cases hfit : w ≤ maxW ∧ h ≤ maxH
  · refine ⟨1, 1, Nat.one_pos, le_refl 1, ?_⟩
    rw [if_pos hfit, roundHalfUp_self_mul Nat.one_pos,
        roundHalfUp_self_mul Nat.one_pos,
        Nat.max_eq_right hw, Nat.max_eq_right hh]
  · by_cases hbr : maxW * h ≤ maxH * w
    · have hWw := fitInside_branch2_lt hW hfit hbr
      refine ⟨maxW, w, by omega, le_of_lt hWw, ?_⟩
      simp only [hfit, if_false, hbr, if_true]
      rw [Nat.mul_comm w maxW, roundHalfUp_self_mul (by omega : 0 < w),
          Nat.max_eq_right hW]
    · have hHh := fitInside_branch3_lt hH hfit hbr
      refine ⟨maxH, h, by omega, le_of_lt hHh, ?_⟩
      simp only [hfit, if_false, hbr]
      rw [Nat.mul_comm h maxH, roundHalfUp_self_mul (by omega : 0 < h),
          Nat.max_eq_right hH]

/-- C7 counterexample: a 2000×2000 texture whose sharp pipeline throws keeps
its original bytes — and hence its original dimensions, which exceed the
configured 1024×1024 bound — refuting "for every texture the output
dimensions are at most the configured maximum". -/
theorem transcode_failure_exceeds_bound_cex :
    transcodeDims false 1024 1024 2000 2000 = (2000, 2000) ∧
    ¬ (transcodeDims false 1024 1024 2000 2000).1 ≤ 1024 := by
  decide

/-- C7 (amended): the transcode step never upscales — both output dimensions
are at most the input dimensions — and whenever the sharp pipeline succeeds
the output also fits the configured maximum, with both dimensions obtained
from one common scale factor `a/b ≤ 1` (aspect ratio preserved up to
rounding); when the pipeline fails the original dimensions pass through
unchanged (so they can exceed the configured maximum). -/
theorem transcode_never_upscales (ok : Bool) (maxW maxH w h : Nat)
    (hw : 1 ≤ w) (hh : 1 ≤ h) (hW : 1 ≤ maxW) (hH : 1 ≤ maxH) :
    (transcodeDims ok maxW maxH w h).1 ≤ w ∧
    (transcodeDims ok maxW maxH w h).2 ≤ h ∧
    (ok = false → transcodeDims ok maxW maxH w h = (w, h)) ∧
    (ok = true →
      (transcodeDims ok maxW maxH w h).1 ≤ maxW ∧
      (transcodeDims ok maxW maxH w h).2 ≤ maxH ∧
      ∃ a b, 0 < b ∧ a ≤ b ∧
        transcodeDims ok maxW maxH w h
          = (max 1 (roundHalfUp (w * a) b), max 1 (roundHalfUp (h * a) b))) := by
  cases ok with
  | false =>
    exact ⟨le_refl w, le_refl h, fun _ => rfl, fun hcon => Bool.noConfusion hcon⟩
  | true =>
    have hb := fitInside_bounds hw hh hW hH
    have hu := fitInside_uniform hw hh hW hH
    exact ⟨hb.1, hb.2.2.1, fun hcon => Bool.noConfusion hcon,
           fun _ => ⟨hb.2.1, hb.2.2.2, hu⟩⟩

/-- Witness for the amended C7 theorem: the spec's Scenario A texture,
1500×1500 against the default 1024×1024 bound, successfully transcoded. -/
theorem transcode_never_upscales_witness :
    (transcodeDims true 1024 1024 1500 1500).1 ≤ 1500 ∧
    (transcodeDims true 1024 1024 1500 1500).2 ≤ 1500 ∧
    (true = false → transcodeDims true 1024 1024 1500 1500 = (1500, 1500)) ∧
    (true = true →
      (transcodeDims true 1024 1024 1500 1500).1 ≤ 1024 ∧
      (transcodeDims true 1024 1024 1500 1500).2 ≤ 1024 ∧
      ∃ a b, 0 < b ∧ a ≤ b ∧
        transcodeDims true 1024 1024 1500 1500
          = (max 1 (roundHalfUp (1500 * a) b), max 1 (roundHalfUp (1500 * a) b))) :=
  transcode_never_upscales true 1024 1024 1500 1500
    (by decide) (by decide) (by decide) (by decide)

/-! ## Debug artifact of the conversion (C10) -/

theorem joinPath_right_injective {dir a b : String}
    (h : joinPath dir a = joinPath dir b) : a = b := by
  unfold joinPath at h
  have hd := congrArg String.data h
  simp only [String.data_append] at hd
  have ha := List.append_cancel_left hd
  cases a
  cases b
  exact congrArg String.mk (by simpa using ha)

theorem mem_compressAll_ops {sharpPng : List Nat → Option (List Nat)}
    {tmpDir : String} {files : List (String × List Nat)} {op : FsOp}
    (h : op ∈ (compressAllPngsInDirectory sharpPng tmpDir files).2) :
    ∃ f ∈ files, isPngName f.1 = true ∧
      op ∈ (compressPng sharpPng (joinPath tmpDir f.1) f.2).2 := by
  simp only [compressAllPngsInDirectory] at h
  rcases List.mem_flatten.mp h with ⟨l, hl, hop⟩
  rcases List.mem_map.mp hl with ⟨f, hf, rfl⟩
  rcases List.mem_filter.mp hf with ⟨hmem, hpng⟩
  exact ⟨f, hmem, hpng, hop⟩

/-- C10 counterexample: a concrete successful conversion writes a
`debug_result.glb` copy of the returned buffer into the temp directory and
its trace contains no delete of that file (the cleanup block is commented
out), refuting "no file is created or left behind on the filesystem by the
assembler". -/
theorem assembler_debug_write_cex :
    convertZipToGlb glbOfTest sharpDouble "tmpd" [ZipEntry.mk "model.obj" [109]]
      = .ok (ConvertResult.mk [103, 108, 84, 70] "model.obj"
          [FsOp.mkdir "tmpd", FsOp.writeFile "tmpd/model.obj" [109],
           FsOp.writeFile "tmpd/debug_result.glb" [103, 108, 84, 70]]) ∧
    ([FsOp.mkdir "tmpd", FsOp.writeFile "tmpd/model.obj" [109],
      FsOp.writeFile "tmpd/debug_result.glb" [103, 108, 84, 70]].all
        (fun op => ! op.deletes "tmpd/debug_result.glb")) = true :=
  ⟨rfl, rfl⟩

/-- C10 (amended): the assembler hands the GLB back as an in-memory buffer,
but every successful conversion ends its filesystem trace with a
`debug_result.glb` write of that buffer into the temp directory, and no
operation of the conversion deletes that file — so a file is created and left
behind on disk. -/
theorem convert_leaves_debug_file
    (glbOf : String → List (String × List Nat) → List Nat)
    (sharpPng : List Nat → Option (List Nat)) (tmpDir : String)
    (entries : List ZipEntry) (r : ConvertResult)
    (hconv : convertZipToGlb glbOf sharpPng tmpDir entries = .ok r) :
    r.ops.getLast?
      = some (FsOp.writeFile (joinPath tmpDir "debug_result.glb") r.glb) ∧
    FsOp.writeFile (joinPath tmpDir "debug_result.glb") r.glb ∈ r.ops ∧
    ∀ op ∈ r.ops, op.deletes (joinPath tmpDir "debug_result.glb") = false := by
  revert hconv
  unfold convertZipToGlb
  cases hfind : entries.find? (fun e => isObjName e.entryName) with
  | none =>
    intro hconv
    exact Except.noConfusion hconv
  | some objEntry =>
    intro hconv
    have hr := Except.ok.inj hconv
    subst hr
    refine ⟨List.getLast?_concat .., ?_, ?_⟩
    · exact List.mem_append.mpr (Or.inr (List.mem_singleton.mpr rfl))
    · intro op hop
      rcases List.mem_append.mp hop with hop | hop
      case inr =>
        rcases List.mem_singleton.mp hop with rfl
        rfl
      rcases List.mem_cons.mp hop with rfl | hop
      · rfl
      rcases List.mem_append.mp hop with hop | hop
      · rcases List.mem_append.mp hop with hop | hop
        · rcases List.mem_append.mp hop with hop | hop
          · -- material write
            cases hm : entries.find? (fun e => isMtlName e.entryName) with
            | none =>
              rw [hm] at hop
              simp [mtlWriteOps] at hop
            | some mm =>
              rw [hm] at hop
              simp only [mtlWriteOps, List.mem_singleton] at hop
              subst hop
              rfl
          · -- relinked mesh write
            rcases List.mem_singleton.mp hop with rfl
            rfl
        · -- texture writes
          rcases List.mem_map.mp hop with ⟨t, _, rfl⟩
          rfl
      · -- compression trace
        by_cases htex :
            (entries.filter (fun e => isTextureName e.entryName)).length > 0
        swap
        · rw [if_neg htex] at hop
          simp at hop
        rw [if_pos htex] at hop
        rcases mem_compressAll_ops hop with ⟨f, _, hpng, hopc⟩
        unfold compressPng at hopc
        cases hs : sharpPng f.2 with
        | none =>
          rw [hs] at hopc
          simp at hopc
        | some nb =>
          rw [hs] at hopc
          simp only [List.mem_cons, List.mem_singleton, List.not_mem_nil,
            or_false] at hopc
          rcases hopc with rfl | rfl | rfl
          · rfl
          · -- the delete targets a png-named file, never debug_result.glb
            simp only [FsOp.deletes, decide_eq_false_iff_not]
            intro heq
            have hname := joinPath_right_injective heq
            rw [hname] at hpng
            exact absurd hpng (by decide)
          · rfl

/-- Witness for the amended C10 theorem at a concrete one-mesh archive. -/
theorem convert_leaves_debug_file_witness :
    (ConvertResult.mk [103, 108, 84, 70] "model.obj"
        [FsOp.mkdir "tmpd", FsOp.writeFile "tmpd/model.obj" [109],
         FsOp.writeFile "tmpd/debug_result.glb" [103, 108, 84, 70]]).ops.getLast?
      = some (FsOp.writeFile (joinPath "tmpd" "debug_result.glb")
          (ConvertResult.mk [103, 108, 84, 70] "model.obj"
            [FsOp.mkdir "tmpd", FsOp.writeFile "tmpd/model.obj" [109],
             FsOp.writeFile "tmpd/debug_result.glb" [103, 108, 84, 70]]).glb) ∧
    FsOp.writeFile (joinPath "tmpd" "debug_result.glb")
        (ConvertResult.mk [103, 108, 84, 70] "model.obj"
          [FsOp.mkdir "tmpd", FsOp.writeFile "tmpd/model.obj" [109],
           FsOp.writeFile "tmpd/debug_result.glb" [103, 108, 84, 70]]).glb
      ∈ (ConvertResult.mk [103, 108, 84, 70] "model.obj"
          [FsOp.mkdir "tmpd", FsOp.writeFile "tmpd/model.obj" [109],
           FsOp.writeFile "tmpd/debug_result.glb" [103, 108, 84, 70]]).ops ∧
    ∀ op ∈ (ConvertResult.mk [103, 108, 84, 70] "model.obj"
        [FsOp.mkdir "tmpd", FsOp.writeFile "tmpd/model.obj" [109],
         FsOp.writeFile "tmpd/debug_result.glb" [103, 108, 84, 70]]).ops,
      op.deletes (joinPath "tmpd" "debug_result.glb") = false :=
  convert_leaves_debug_file glbOfTest sharpDouble "tmpd"
    [ZipEntry.mk "model.obj" [109]]
    (ConvertResult.mk [103, 108, 84, 70] "model.obj"
      [FsOp.mkdir "tmpd", FsOp.writeFile "tmpd/model.obj" [109],
       FsOp.writeFile "tmpd/debug_result.glb" [103, 108, 84, 70]]) rfl

end DronePhoto
